import Mathlib

/-
Verification of the Huffman coder in Final_cep_bysaad.py.

Embedding conventions:
- a Python text string is a `List Char`;
- a Python bit-string (a str of the characters 0 and 1) is a `List Bool`,
  with false standing for the character 0 and true for the character 1;
- a Python byte array is a `List Nat` whose members are below 256;
- a Python dict is an association list kept in insertion order: assignment
  `d[k] = v` is `dict_set` (update in place when the key is present, append
  otherwise), lookup `d[k]` is `dict_get`;
- fallible operations (int("") raising ValueError, a KeyError on a missing
  dict key) return `Option`;
- the module `heapq` that the source imports is embedded from CPython's
  pure-python reference implementation of heappush / heappop / heapify
  (functions siftdown_loop, siftdown, siftup_loop, siftup below), with the
  element comparison `Node.__lt__`, which compares the freq fields.
-/

set_option maxRecDepth 4000

/-- Association-list lookup, the embedding of a Python dict read `d[k]`
(some value when the key is present, none standing for a KeyError). -/
def dict_get {κ ν : Type} [DecidableEq κ] (d : List (κ × ν)) (k : κ) : Option ν :=
  (d.find? fun p => decide (p.1 = k)).map Prod.snd

/-- Association-list update, the embedding of a Python dict write `d[k] = v`:
an existing key keeps its position and gets the new value, a fresh key is
appended at the end (insertion order). -/
def dict_set {κ ν : Type} [DecidableEq κ] (d : List (κ × ν)) (k : κ) (v : ν) : List (κ × ν) :=
  if d.any fun p => decide (p.1 = k) then
    d.map fun p => if p.1 = k then (k, v) else p
  else
    d ++ [(k, v)]

/-- The value of a bit-string read as a base-2 integer literal, MSB first:
the embedding of Python `int(s, 2)` on a non-empty string of 0s and 1s. -/
def natOfBits (bits : List Bool) : Nat :=
  bits.foldl (fun n b => 2 * n + (if b then 1 else 0)) 0

/-- The 8-character binary rendering of a number below 256, MSB first: the
embedding of Python `f"{n:08b}"`. -/
def bitsOfNat8 (n : Nat) : List Bool :=
  [n.testBit 7, n.testBit 6, n.testBit 5, n.testBit 4,
   n.testBit 3, n.testBit 2, n.testBit 1, n.testBit 0]

/-- The Node class of Final_cep_bysaad.py. The constructor is only ever used
in two shapes: `Node(char, freq)` with no children (a leaf), and
`Node(None, freq)` that is immediately given two children (an internal
node), so the embedding is the corresponding inductive. -/
inductive Node where
  | leaf (char : Char) (freq : Nat)
  | internal (freq : Nat) (left : Node) (right : Node)
deriving DecidableEq

instance : Inhabited Node := ⟨Node.leaf 'a' 0⟩

/-- The freq field of a Node; `Node.__lt__` compares these. -/
def Node.freq : Node → Nat
  | .leaf _ f => f
  | .internal f _ _ => f

/-- The while loop of CPython's `heapq._siftdown`: moves parents down while
the new item is smaller, returning the array state and the final position
(the write of newitem at that position is done by `siftdown`). -/
def siftdown_loop (heap : List Node) (startpos pos : Nat) (newitem : Node) : List Node × Nat :=
  if h1 : startpos < pos then
    if h2 : newitem.freq < (heap.getD ((pos - 1) / 2) default).freq then
      siftdown_loop (heap.set pos (heap.getD ((pos - 1) / 2) default)) startpos ((pos - 1) / 2) newitem
    else (heap, pos)
  else (heap, pos)
termination_by pos
decreasing_by omega

/-- CPython's `heapq._siftdown(heap, startpos, pos)`. -/
def siftdown (heap : List Node) (startpos pos : Nat) : List Node :=
  let newitem := heap.getD pos default
  let r := siftdown_loop heap startpos pos newitem
  r.1.set r.2 newitem

/-- The while loop of CPython's `heapq._siftup`: bubbles the smaller child up
while a child exists, returning the array state and the final position. -/
def siftup_loop (heap : List Node) (endpos pos : Nat) : List Node × Nat :=
  if h1 : 2 * pos + 1 < endpos then
    if h2 : 2 * pos + 2 < endpos ∧
        ¬ (heap.getD (2 * pos + 1) default).freq < (heap.getD (2 * pos + 2) default).freq then
      siftup_loop (heap.set pos (heap.getD (2 * pos + 2) default)) endpos (2 * pos + 2)
    else
      siftup_loop (heap.set pos (heap.getD (2 * pos + 1) default)) endpos (2 * pos + 1)
  else (heap, pos)
termination_by endpos - pos
decreasing_by
  all_goals omega

/-- CPython's `heapq._siftup(heap, pos)`: it ends by writing newitem at the
final position and calling `_siftdown(heap, startpos, pos)`. -/
def siftup (heap : List Node) (pos : Nat) : List Node :=
  let newitem := heap.getD pos default
  let r := siftup_loop heap heap.length pos
  siftdown (r.1.set r.2 newitem) pos r.2

/-- CPython's `heapq.heappush`: append, then sift down from the last index. -/
def heappush (heap : List Node) (item : Node) : List Node :=
  siftdown (heap ++ [item]) 0 ((heap ++ [item]).length - 1)

/-- CPython's `heapq.heappop`: pop the last element; on a now-empty list it
is the result, otherwise it replaces the root, which is sifted up. The
source never calls heappop on an empty heap (Python would raise IndexError);
on [] this embedding returns the default node. -/
def heappop (heap : List Node) : Node × List Node :=
  let lastelt := heap.getLastD default
  let rest := heap.dropLast
  if rest = [] then (lastelt, rest)
  else (rest.getD 0 default, siftup (rest.set 0 lastelt) 0)

/-- The loop of CPython's `heapq.heapify`: `_siftup(x, i)` for
i = n/2 - 1 down to 0; `heapifyLoop x k` runs indices k-1 down to 0. -/
def heapifyLoop (x : List Node) : Nat → List Node
  | 0 => x
  | i + 1 => heapifyLoop (siftup x i) i

/-- CPython's `heapq.heapify`. -/
def heapify (x : List Node) : List Node :=
  heapifyLoop x (x.length / 2)

theorem list_getD_set_ne {α : Type} (l : List α) (i j : Nat) (x : α) (d : α) (hne : i ≠ j) :
    (l.set i x).getD j d = l.getD j d := by
  induction l generalizing i j with
  | nil => simp [List.set]
  | cons a t ih =>
    cases i with
    | zero =>
      cases j with
      | zero => exact absurd rfl hne
      | succ m => simp
    | succ n =>
      cases j with
      | zero => simp
      | succ m =>
        simp only [List.set, List.getD_cons_succ]
        exact ih n m (by omega)

theorem list_getD_set_self {α : Type} (l : List α) (i : Nat) (x : α) (d : α) (h : i < l.length) :
    (l.set i x).getD i d = x := by
  induction l generalizing i with
  | nil => simp at h
  | cons a t ih =>
    cases i with
    | zero => simp
    | succ n =>
      simp only [List.set, List.getD_cons_succ]
      exact ih n (by simpa using h)

theorem list_set_getD_self {α : Type} (l : List α) (i : Nat) (d : α) (h : i < l.length) :
    l.set i (l.getD i d) = l := by
  induction l generalizing i with
  | nil => simp at h
  | cons a t ih =>
    cases i with
    | zero => simp
    | succ n =>
      simp only [List.getD_cons_succ, List.set]
      rw [ih n (by simpa using h)]

theorem cons_set_perm {α : Type} (t : List α) (m : Nat) (d a : α) (hm : m < t.length) :
    List.Perm (t.getD m d :: t.set m a) (a :: t) := by
  induction t generalizing m with
  | nil => simp at hm
  | cons b s ih =>
    cases m with
    | zero =>
      simp only [List.getD_cons_zero, List.set]
      exact List.Perm.swap a b s
    | succ k =>
      simp only [List.getD_cons_succ, List.set]
      exact (List.Perm.swap b (s.getD k d) (s.set k a)).trans
        (((ih k (by simpa using hm)).cons b).trans (List.Perm.swap a b s))

theorem swap_set_perm {α : Type} (l : List α) (i j : Nat) (d : α)
    (hi : i < l.length) (hj : j < l.length) :
    List.Perm ((l.set i (l.getD j d)).set j (l.getD i d)) l := by
  induction l generalizing i j with
  | nil => simp at hi
  | cons a t ih =>
    cases i with
    | zero =>
      cases j with
      | zero =>
        simp only [List.getD_cons_zero, List.set]
        exact List.Perm.refl _
      | succ m =>
        simp only [List.getD_cons_zero, List.getD_cons_succ, List.set]
        exact cons_set_perm t m d a (by simpa using hj)
    | succ n =>
      cases j with
      | zero =>
        simp only [List.getD_cons_zero, List.getD_cons_succ, List.set]
        exact cons_set_perm t n d a (by simpa using hi)
      | succ m =>
        simp only [List.getD_cons_succ, List.set]
        exact (ih n m (by simpa using hi) (by simpa using hj)).cons a

theorem set_move_perm {α : Type} (l : List α) (i j : Nat) (d : α)
    (hi : i < l.length) (hj : j < l.length) (hne : i ≠ j) (X : α) :
    List.Perm ((l.set i (l.getD j d)).set j X) (l.set i X) := by
  have hs := swap_set_perm (l.set i X) i j d (by simpa using hi) (by simpa using hj)
  rw [list_getD_set_ne l i j X d hne, list_getD_set_self l i X d hi, List.set_set] at hs
  exact hs

theorem siftdown_loop_spec (heap : List Node) (startpos pos : Nat) (newitem : Node)
    (h : pos < heap.length) :
    (siftdown_loop heap startpos pos newitem).1.length = heap.length ∧
    (siftdown_loop heap startpos pos newitem).2 ≤ pos ∧
    ∀ X, List.Perm ((siftdown_loop heap startpos pos newitem).1.set
      (siftdown_loop heap startpos pos newitem).2 X) (heap.set pos X) := by
  induction heap, startpos, pos, newitem using siftdown_loop.induct with
  | case1 heap startpos pos newitem h1 h2 ih =>
    rw [siftdown_loop, dif_pos h1, dif_pos h2]
    have hlen : pos < (heap.set pos (heap.getD ((pos - 1) / 2) default)).length := by
      simpa using h
    have hpar : (pos - 1) / 2 < (heap.set pos (heap.getD ((pos - 1) / 2) default)).length := by
      simp only [List.length_set]; omega
    obtain ⟨ihlen, ihle, ihperm⟩ := ih (by simp only [List.length_set]; omega)
    refine ⟨by simpa using ihlen, by omega, fun X => ?_⟩
    refine (ihperm X).trans ?_
    exact set_move_perm heap pos ((pos - 1) / 2) default h (by omega) (by omega) X
  | case2 heap startpos pos newitem h1 h2 =>
    rw [siftdown_loop, dif_pos h1, dif_neg h2]
    exact ⟨rfl, le_refl pos, fun X => List.Perm.refl _⟩
  | case3 heap startpos pos newitem h1 =>
    rw [siftdown_loop, dif_neg h1]
    exact ⟨rfl, le_refl pos, fun X => List.Perm.refl _⟩

theorem siftdown_perm (heap : List Node) (startpos pos : Nat) (h : pos < heap.length) :
    List.Perm (siftdown heap startpos pos) heap := by
  obtain ⟨hlen, hle, hperm⟩ := siftdown_loop_spec heap startpos pos (heap.getD pos default) h
  unfold siftdown
  exact (hperm (heap.getD pos default)).trans
    (by rw [list_set_getD_self heap pos default h])

theorem siftdown_length (heap : List Node) (startpos pos : Nat) (h : pos < heap.length) :
    (siftdown heap startpos pos).length = heap.length :=
  (siftdown_perm heap startpos pos h).length_eq

theorem siftup_loop_spec (heap : List Node) (endpos pos : Nat)
    (hend : endpos = heap.length) (h : pos < endpos) :
    (siftup_loop heap endpos pos).1.length = heap.length ∧
    (siftup_loop heap endpos pos).2 < endpos ∧
    ∀ X, List.Perm ((siftup_loop heap endpos pos).1.set
      (siftup_loop heap endpos pos).2 X) (heap.set pos X) := by
  induction heap, endpos, pos using siftup_loop.induct with
  | case1 heap endpos pos h1 h2 ih =>
    rw [siftup_loop, dif_pos h1, dif_pos h2]
    obtain ⟨ihlen, ihlt, ihperm⟩ := ih (by simpa using hend) (by omega)
    refine ⟨by simpa using ihlen, ihlt, fun X => ?_⟩
    refine (ihperm X).trans ?_
    exact set_move_perm heap pos (2 * pos + 2) default (by omega) (by omega) (by omega) X
  | case2 heap endpos pos h1 h2 ih =>
    rw [siftup_loop, dif_pos h1, dif_neg h2]
    obtain ⟨ihlen, ihlt, ihperm⟩ := ih (by simpa using hend) (by omega)
    refine ⟨by simpa using ihlen, ihlt, fun X => ?_⟩
    refine (ihperm X).trans ?_
    exact set_move_perm heap pos (2 * pos + 1) default (by omega) (by omega) (by omega) X
  | case3 heap endpos pos h1 =>
    rw [siftup_loop, dif_neg h1]
    exact ⟨rfl, h, fun X => List.Perm.refl _⟩

theorem siftup_perm (heap : List Node) (pos : Nat) (h : pos < heap.length) :
    List.Perm (siftup heap pos) heap := by
  obtain ⟨hlen, hlt, hperm⟩ := siftup_loop_spec heap heap.length pos rfl h
  unfold siftup
  have hmid : List.Perm ((siftup_loop heap heap.length pos).1.set
      (siftup_loop heap heap.length pos).2 (heap.getD pos default)) heap :=
    (hperm (heap.getD pos default)).trans (by rw [list_set_getD_self heap pos default h])
  have hlt2 : (siftup_loop heap heap.length pos).2 <
      ((siftup_loop heap heap.length pos).1.set
        (siftup_loop heap heap.length pos).2 (heap.getD pos default)).length := by
    simp only [List.length_set]; omega
  exact (siftdown_perm _ pos _ hlt2).trans hmid

theorem siftup_length (heap : List Node) (pos : Nat) (h : pos < heap.length) :
    (siftup heap pos).length = heap.length :=
  (siftup_perm heap pos h).length_eq

theorem heappush_perm (heap : List Node) (item : Node) :
    List.Perm (heappush heap item) (item :: heap) := by
  unfold heappush
  have hlen : (heap ++ [item]).length - 1 < (heap ++ [item]).length := by
    simp
  exact (siftdown_perm _ 0 _ hlen).trans (List.perm_append_singleton item heap)

theorem heappush_length (heap : List Node) (item : Node) :
    (heappush heap item).length = heap.length + 1 := by
  simpa using (heappush_perm heap item).length_eq

theorem list_dropLast_getLastD {α : Type} (l : List α) (d : α) (h : l ≠ []) :
    l.dropLast ++ [l.getLastD d] = l := by
  induction l with
  | nil => exact absurd rfl h
  | cons a t ih =>
    cases t with
    | nil => rfl
    | cons b s =>
      have ht : (b :: s) ≠ [] := by simp
      have := ih ht
      simpa using this

theorem heappop_perm (heap : List Node) (h : heap ≠ []) :
    List.Perm ((heappop heap).1 :: (heappop heap).2) heap := by
  unfold heappop
  by_cases hrest : heap.dropLast = []
  · simp only [hrest, if_pos rfl]
    obtain ⟨x, hx⟩ : ∃ x, heap = [x] := by
      cases heap with
      | nil => exact absurd rfl h
      | cons a t =>
        cases t with
        | nil => exact ⟨a, rfl⟩
        | cons b s => simp [List.dropLast] at hrest
    subst hx
    simp
  · rw [if_neg hrest]
    dsimp only
    have h0 : 0 < heap.dropLast.length := List.length_pos.mpr hrest
    have hlen0 : 0 < (heap.dropLast.set 0 (heap.getLastD default)).length := by
      simpa using h0
    have hsp := siftup_perm (heap.dropLast.set 0 (heap.getLastD default)) 0 hlen0
    refine (hsp.cons _).trans ?_
    refine (cons_set_perm heap.dropLast 0 default (heap.getLastD default) h0).trans ?_
    have hheap : heap.dropLast ++ [heap.getLastD default] = heap :=
      list_dropLast_getLastD heap default h
    have hps := (List.perm_append_singleton (heap.getLastD default) heap.dropLast).symm
    rw [hheap] at hps
    exact hps

theorem heappop_length (heap : List Node) (h : heap ≠ []) :
    (heappop heap).2.length = heap.length - 1 := by
  have := (heappop_perm heap h).length_eq
  simp only [List.length_cons] at this
  omega

theorem heapifyLoop_perm (k : Nat) (x : List Node) (hk : k ≤ x.length) :
    List.Perm (heapifyLoop x k) x := by
  induction k generalizing x with
  | zero => exact List.Perm.refl x
  | succ i ih =>
    have hi : i < x.length := by omega
    have hperm := siftup_perm x i hi
    have hlen := siftup_length x i hi
    exact (ih (siftup x i) (by omega)).trans hperm

theorem heapify_perm (x : List Node) : List.Perm (heapify x) x :=
  heapifyLoop_perm (x.length / 2) x (by omega)

/-- build_frequency_table of Final_cep_bysaad.py: one linear pass with
`freq[char] = freq.get(char, 0) + 1`. -/
def build_frequency_table (text : List Char) : List (Char × Nat) :=
  text.foldl (fun freq char => dict_set freq char ((dict_get freq char).getD 0 + 1)) []

/-- The loop of build_huffman_tree: while len(heap) > 1, pop two nodes (the
first popped becomes the left child), merge them into an internal node whose
freq is the sum, push it back; then return heap[0]. -/
def hufLoop (heap : List Node) : Node :=
  if h : 1 < heap.length then
    hufLoop (heappush (heappop (heappop heap).2).2
      (Node.internal ((heappop heap).1.freq + (heappop (heappop heap).2).1.freq)
        (heappop heap).1 (heappop (heappop heap).2).1))
  else heap.getD 0 default
termination_by heap.length
decreasing_by
  have hne : heap ≠ [] := by intro he; rw [he] at h; simp at h
  have l1 := heappop_length heap hne
  have hne2 : (heappop heap).2 ≠ [] := by
    intro he; rw [he] at l1; simp at l1; omega
  have l2 := heappop_length (heappop heap).2 hne2
  rw [heappush_length, l2, l1]
  omega

/-- build_huffman_tree of Final_cep_bysaad.py: None on an empty frequency
table, else heapify one leaf per entry and run the merge loop. -/
def build_huffman_tree (freq_table : List (Char × Nat)) : Option Node :=
  if freq_table = [] then none
  else some (hufLoop (heapify (freq_table.map fun p => Node.leaf p.1 p.2)))

/-- generate_codes of Final_cep_bysaad.py on a (non-None) node: a leaf
records the accumulated path (or the one-bit code 0 when the path is empty),
an internal node recurses left with a 0 appended, then right with a 1. -/
def generate_codes (node : Node) (code : List Bool) (codes : List (Char × List Bool)) :
    List (Char × List Bool) :=
  match node with
  | .leaf c _ => dict_set codes c (if code = [] then [false] else code)
  | .internal _ l r => generate_codes r (code ++ [true]) (generate_codes l (code ++ [false]) codes)

/-- generate_codes applied to build_huffman_tree's result, with the default
arguments code="" and codes={}: a None node returns the empty table. -/
def generate_codes_root : Option Node → List (Char × List Bool)
  | none => []
  | some n => generate_codes n [] []

/-- encode_text of Final_cep_bysaad.py: the concatenation of codes[ch] over
the text; none stands for the KeyError Python raises on a missing symbol. -/
def encode_text (text : List Char) (codes : List (Char × List Bool)) : Option (List Bool) :=
  match text with
  | [] => some []
  | ch :: rest =>
    match dict_get codes ch, encode_text rest codes with
    | some cw, some enc => some (cw ++ enc)
    | _, _ => none

/-- pad_encoded of Final_cep_bysaad.py: extra = (8 - len mod 8) mod 8, an
8-bit header holding extra, then the bits, then extra zero bits; returns the
padded bit-string and extra. -/
def pad_encoded (encoded : List Bool) : List Bool × Nat :=
  let extra := (8 - encoded.length % 8) % 8
  (bitsOfNat8 extra ++ (encoded ++ List.replicate extra false), extra)

/-- The helper _bits_to_bytes of Final_cep_bysaad.py: every 8 bits become one
byte, MSB first. -/
def _bits_to_bytes (bits : List Bool) : List Nat :=
  match bits with
  | [] => []
  | b :: rest => natOfBits ((b :: rest).take 8) :: _bits_to_bytes ((b :: rest).drop 8)
termination_by bits.length
decreasing_by simp only [List.length_drop, List.length_cons]; omega

/-- The helper _bytes_to_bits of Final_cep_bysaad.py: each byte rendered as
8 bits, MSB first, concatenated. -/
def _bytes_to_bits (data : List Nat) : List Bool :=
  (data.map bitsOfNat8).flatten

/-- remove_padding of Final_cep_bysaad.py: read the first 8 bits as the
padding count and, when it is positive, cut that many bits off the end
(Python's s[:-n], which clamps at the empty string). none stands for the
ValueError that int(s, 2) raises when the input is empty. -/
def remove_padding (encoded_data : List Bool) : Option (List Bool) :=
  if encoded_data.take 8 = [] then none
  else
    let extra_padding := natOfBits (encoded_data.take 8)
    let rest := encoded_data.drop 8
    some (if 0 < extra_padding then rest.take (rest.length - extra_padding) else rest)

/-- The reverse dict {v: k for k, v in codes.items()} built by decode_text. -/
def reverse_dict (codes : List (Char × List Bool)) : List (List Bool × Char) :=
  codes.foldl (fun d p => dict_set d p.2 p.1) []

/-- The loop of decode_text: append each bit to the current candidate; when
the candidate is a key of the reverse dict, emit its symbol and reset. -/
def decode_loop (rc : List (List Bool × Char)) : List Bool → List Bool → List Char
  | [], _ => []
  | bit :: rest, current =>
    match dict_get rc (current ++ [bit]) with
    | some ch => ch :: decode_loop rc rest []
    | none => decode_loop rc rest (current ++ [bit])

/-- decode_text of Final_cep_bysaad.py: run the loop from an empty candidate
and return the emitted symbols (bits left in the candidate at the end are
silently dropped). -/
def decode_text (encoded_data : List Bool) (codes : List (Char × List Bool)) : List Char :=
  decode_loop (reverse_dict codes) encoded_data []

/-- _compress_text of Final_cep_bysaad.py: none on empty text (it raises
ValueError) or on a KeyError inside encode_text; else the packed bytes and
the code table. -/
def _compress_text (text : List Char) : Option (List Nat × List (Char × List Bool)) :=
  if text = [] then none
  else
    match encode_text text (generate_codes_root (build_huffman_tree (build_frequency_table text))) with
    | none => none
    | some encoded =>
      some (_bits_to_bytes (pad_encoded encoded).1,
        generate_codes_root (build_huffman_tree (build_frequency_table text)))

/-- _decompress_bytes of Final_cep_bysaad.py: bytes to bits, strip padding,
decode; none stands for the ValueError remove_padding can raise. -/
def _decompress_bytes (bin_bytes : List Nat) (codes : List (Char × List Bool)) :
    Option (List Char) :=
  match remove_padding (_bytes_to_bits bin_bytes) with
  | none => none
  | some bits => some (decode_text bits codes)

/-- The multiset of symbols sitting at the leaves of a tree. -/
def leafChars : Node → Multiset Char
  | .leaf c _ => {c}
  | .internal _ l r => leafChars l + leafChars r

/-- The leaves of a tree in depth-first order, each paired with the path
code that generate_codes records for it. -/
def leafCodes (node : Node) (code : List Bool) : List (Char × List Bool) :=
  match node with
  | .leaf c _ => [(c, if code = [] then [false] else code)]
  | .internal _ l r => leafCodes l (code ++ [false]) ++ leafCodes r (code ++ [true])

/-- The multiset of leaf symbols over all nodes of a heap. -/
def heapChars (h : List Node) : Multiset Char :=
  (h.map leafChars).sum

theorem heapChars_nil : heapChars [] = 0 := rfl

theorem heapChars_cons (x : Node) (t : List Node) :
    heapChars (x :: t) = leafChars x + heapChars t := by
  simp [heapChars]

theorem heapChars_perm {h1 h2 : List Node} (hp : List.Perm h1 h2) :
    heapChars h1 = heapChars h2 :=
  (hp.map leafChars).sum_eq

theorem hufLoop_chars (heap : List Node) (h : heap ≠ []) :
    leafChars (hufLoop heap) = heapChars heap := by
  induction heap using hufLoop.induct with
  | case1 heap h1 ih =>
    rw [hufLoop, dif_pos h1]
    have hne : heap ≠ [] := by intro he; rw [he] at h1; simp at h1
    have l1 := heappop_length heap hne
    have hne2 : (heappop heap).2 ≠ [] := by
      intro he; rw [he] at l1; simp at l1; omega
    have l2 := heappop_length (heappop heap).2 hne2
    have hpushne : heappush (heappop (heappop heap).2).2
        (Node.internal ((heappop heap).1.freq + (heappop (heappop heap).2).1.freq)
          (heappop heap).1 (heappop (heappop heap).2).1) ≠ [] := by
      intro he
      have := heappush_length (heappop (heappop heap).2).2
        (Node.internal ((heappop heap).1.freq + (heappop (heappop heap).2).1.freq)
          (heappop heap).1 (heappop (heappop heap).2).1)
      rw [he] at this
      simp at this
    rw [ih hpushne]
    rw [heapChars_perm (heappush_perm _ _), heapChars_cons]
    rw [← heapChars_perm (heappop_perm heap hne), heapChars_cons]
    rw [← heapChars_perm (heappop_perm (heappop heap).2 hne2), heapChars_cons]
    show leafChars (Node.internal _ (heappop heap).1 (heappop (heappop heap).2).1) + _ = _
    rw [leafChars]
    exact (add_assoc _ _ _)
  | case2 heap h1 =>
    rw [hufLoop, dif_neg h1]
    obtain ⟨n, hn⟩ : ∃ n, heap = [n] := by
      cases heap with
      | nil => exact absurd rfl h
      | cons a t =>
        cases t with
        | nil => exact ⟨a, rfl⟩
        | cons b s => exfalso; apply h1; simp
    subst hn
    simp [heapChars]

theorem map_leaf_chars (l : List (Char × Nat)) :
    heapChars (l.map fun p => Node.leaf p.1 p.2) = ((l.map Prod.fst : List Char) : Multiset Char) := by
  induction l with
  | nil => rfl
  | cons p t ih =>
    simp only [List.map_cons, heapChars_cons, ih]
    rw [leafChars]
    simp [Multiset.singleton_add]

theorem build_huffman_tree_chars (freq : List (Char × Nat)) (h : freq ≠ []) :
    ∃ t, build_huffman_tree freq = some t ∧
      leafChars t = ((freq.map Prod.fst : List Char) : Multiset Char) := by
  refine ⟨hufLoop (heapify (freq.map fun p => Node.leaf p.1 p.2)), ?_, ?_⟩
  · rw [build_huffman_tree, if_neg h]
  · have hne : heapify (freq.map fun p => Node.leaf p.1 p.2) ≠ [] := by
      intro he
      have := (heapify_perm (freq.map fun p => Node.leaf p.1 p.2)).length_eq
      rw [he] at this
      simp at this
      exact h (List.length_eq_zero.mp this.symm)
    rw [hufLoop_chars _ hne, heapChars_perm (heapify_perm _), map_leaf_chars]

theorem dict_set_fresh {κ ν : Type} [DecidableEq κ] (d : List (κ × ν)) (k : κ) (v : ν)
    (h : k ∉ d.map Prod.fst) : dict_set d k v = d ++ [(k, v)] := by
  rw [dict_set, if_neg]
  intro hany
  rw [List.any_eq_true] at hany
  obtain ⟨p, hp, hpk⟩ := hany
  exact h (List.mem_map.mpr ⟨p, hp, of_decide_eq_true hpk⟩)

theorem dict_set_keys_mem {κ ν : Type} [DecidableEq κ] (d : List (κ × ν)) (k : κ) (v : ν)
    (c : κ) : c ∈ (dict_set d k v).map Prod.fst ↔ c ∈ d.map Prod.fst ∨ c = k := by
  rw [dict_set]
  by_cases hany : d.any fun p => decide (p.1 = k)
  · rw [if_pos hany]
    have hk : k ∈ d.map Prod.fst := by
      rw [List.any_eq_true] at hany
      obtain ⟨p, hp, hpk⟩ := hany
      exact List.mem_map.mpr ⟨p, hp, of_decide_eq_true hpk⟩
    have hkeys : (List.map (fun p => if p.1 = k then (k, v) else p) d).map Prod.fst =
        d.map Prod.fst := by
      rw [List.map_map]
      refine List.map_congr_left ?_
      intro p _
      by_cases hpk : p.1 = k
      · simp [hpk]
      · simp [hpk]
    rw [hkeys]
    constructor
    · exact Or.inl
    · rintro (hc | rfl)
      · exact hc
      · exact hk
  · rw [if_neg hany]
    simp [or_comm]

theorem dict_set_keys_nodup {κ ν : Type} [DecidableEq κ] (d : List (κ × ν)) (k : κ) (v : ν)
    (h : (d.map Prod.fst).Nodup) : ((dict_set d k v).map Prod.fst).Nodup := by
  rw [dict_set]
  by_cases hany : d.any fun p => decide (p.1 = k)
  · rw [if_pos hany]
    have hkeys : (List.map (fun p => if p.1 = k then (k, v) else p) d).map Prod.fst =
        d.map Prod.fst := by
      rw [List.map_map]
      refine List.map_congr_left ?_
      intro p _
      by_cases hpk : p.1 = k
      · simp [hpk]
      · simp [hpk]
    rw [hkeys]; exact h
  · rw [if_neg hany]
    rw [List.map_append]
    rw [List.nodup_append]
    refine ⟨h, by simp, ?_⟩
    intro c hc
    simp only [List.map_cons, List.map_nil, List.mem_singleton]
    intro hck
    subst hck
    rw [List.any_eq_true] at hany
    apply hany
    obtain ⟨p, hp, hpk⟩ := List.mem_map.mp hc
    exact ⟨p, hp, decide_eq_true hpk⟩

theorem dict_get_mem {κ ν : Type} [DecidableEq κ] (d : List (κ × ν)) (k : κ) (v : ν)
    (h : dict_get d k = some v) : (k, v) ∈ d := by
  rw [dict_get] at h
  cases hf : d.find? fun q => decide (q.1 = k) with
  | none => rw [hf] at h; simp at h
  | some q =>
    rw [hf] at h
    simp only [Option.map_some'] at h
    have hqk : q.1 = k := by simpa using List.find?_some hf
    have hqm : q ∈ d := List.mem_of_find?_eq_some hf
    have hqv : q.2 = v := Option.some.inj h
    have : q = (k, v) := by
      cases q with
      | mk a b => simp only at hqk hqv ⊢; rw [hqk, hqv]
    rw [← this]; exact hqm

theorem dict_get_none_iff {κ ν : Type} [DecidableEq κ] (d : List (κ × ν)) (k : κ) :
    dict_get d k = none ↔ k ∉ d.map Prod.fst := by
  rw [dict_get]
  rw [Option.map_eq_none']
  rw [List.find?_eq_none]
  constructor
  · intro hnone hk
    obtain ⟨p, hp, hpk⟩ := List.mem_map.mp hk
    exact absurd (decide_eq_true hpk) (by simpa using hnone p hp)
  · intro hk p hp
    simp only [decide_eq_true_eq]
    intro hpk
    exact hk (List.mem_map.mpr ⟨p, hp, hpk⟩)

theorem dict_get_of_mem_nodup {κ ν : Type} [DecidableEq κ] (d : List (κ × ν)) (k : κ) (v : ν)
    (hnd : (d.map Prod.fst).Nodup) (hmem : (k, v) ∈ d) : dict_get d k = some v := by
  induction d with
  | nil => simp at hmem
  | cons p rest ih =>
    have hnd' : p.1 ∉ rest.map Prod.fst ∧ (rest.map Prod.fst).Nodup := by
      rw [List.map_cons, List.nodup_cons] at hnd; exact hnd
    rw [dict_get]
    by_cases hpk : p.1 = k
    · rw [List.find?_cons_of_pos]
      · simp only [Option.map_some', Option.some.injEq]
        rcases List.mem_cons.mp hmem with heq | hrest
        · rw [← heq]
        · exfalso
          have hk1 : k ∈ rest.map Prod.fst := List.mem_map.mpr ⟨(k, v), hrest, rfl⟩
          have := hnd'.1
          rw [hpk] at this
          exact this hk1
      · exact decide_eq_true hpk
    · rw [List.find?_cons_of_neg]
      · rcases List.mem_cons.mp hmem with heq | hrest
        · exfalso; apply hpk; rw [← heq]
        · exact ih hnd'.2 hrest
      · simpa using hpk

theorem foldl_dict_set_fresh {κ ν : Type} [DecidableEq κ] (L : List (κ × ν)) :
    ∀ (d : List (κ × ν)), (L.map Prod.fst).Nodup →
    (∀ k ∈ L.map Prod.fst, k ∉ d.map Prod.fst) →
    L.foldl (fun acc p => dict_set acc p.1 p.2) d = d ++ L := by
  induction L with
  | nil => intro d _ _; simp
  | cons p rest ih =>
    intro d hnd hfresh
    have hnd' : p.1 ∉ rest.map Prod.fst ∧ (rest.map Prod.fst).Nodup := by
      rw [List.map_cons, List.nodup_cons] at hnd; exact hnd
    rw [List.foldl_cons]
    have hfr : p.1 ∉ d.map Prod.fst := hfresh p.1 (by simp)
    rw [dict_set_fresh d p.1 p.2 hfr]
    have hstep := ih (d ++ [(p.1, p.2)])
      hnd'.2
      (by
        intro k hk
        rw [List.map_append]
        rw [List.mem_append]
        rintro (hkd | hkp)
        · exact hfresh k (by simp [hk]) hkd
        · simp only [List.map_cons, List.map_nil, List.mem_singleton] at hkp
          subst hkp
          exact hnd'.1 hk)
    rw [hstep]
    simp

theorem generate_codes_eq_foldl (node : Node) :
    ∀ (code : List Bool) (codes : List (Char × List Bool)),
    generate_codes node code codes =
      (leafCodes node code).foldl (fun acc p => dict_set acc p.1 p.2) codes := by
  induction node with
  | leaf c f => intro code codes; rfl
  | internal f l r ihl ihr =>
    intro code codes
    rw [generate_codes, leafCodes, List.foldl_append, ← ihl, ← ihr]

theorem leafCodes_keys (n : Node) :
    ∀ code, (((leafCodes n code).map Prod.fst : List Char) : Multiset Char) = leafChars n := by
  induction n with
  | leaf c f => intro code; rfl
  | internal f l r ihl ihr =>
    intro code
    rw [leafCodes, leafChars, List.map_append]
    rw [← ihl (code ++ [false]), ← ihr (code ++ [true])]
    simp

theorem leafCodes_val_ne_nil (n : Node) :
    ∀ code p, p ∈ leafCodes n code → p.2 ≠ [] := by
  induction n with
  | leaf c f =>
    intro code p hp
    rw [leafCodes, List.mem_singleton] at hp
    subst hp
    by_cases hc : code = []
    · simp [hc]
    · simp [hc]
  | internal f l r ihl ihr =>
    intro code p hp
    rw [leafCodes, List.mem_append] at hp
    rcases hp with hp | hp
    · exact ihl _ p hp
    · exact ihr _ p hp

theorem leafCodes_val_extends (n : Node) :
    ∀ code p, p ∈ leafCodes n code → code <+: p.2 := by
  induction n with
  | leaf c f =>
    intro code p hp
    rw [leafCodes, List.mem_singleton] at hp
    subst hp
    by_cases hc : code = []
    · simp [hc]
    · simp [hc]
  | internal f l r ihl ihr =>
    intro code p hp
    rw [leafCodes, List.mem_append] at hp
    rcases hp with hp | hp
    · exact (List.prefix_append code [false]).trans (ihl _ p hp)
    · exact (List.prefix_append code [true]).trans (ihr _ p hp)

theorem no_cross_pfx (c1 c2 : List Bool) (hlen : c1.length = c2.length) (hne : c1 ≠ c2)
    (p q : List Bool) (hp : c1 <+: p) (hq : c2 <+: q) : ¬ p <+: q := by
  intro hpq
  have h1 : c1 <+: q := hp.trans hpq
  have h2 : c1 <+: c2 := List.prefix_of_prefix_length_le h1 hq (le_of_eq hlen)
  obtain ⟨t, ht⟩ := h2
  have htl : t = [] := by
    have hl := congrArg List.length ht
    rw [List.length_append] at hl
    have : t.length = 0 := by omega
    exact List.length_eq_zero.mp this
  rw [htl] at ht
  simp at ht
  exact hne ht

theorem leafCodes_pairwise (n : Node) :
    ∀ code, List.Pairwise (fun p q : Char × List Bool => ¬ p.2 <+: q.2 ∧ ¬ q.2 <+: p.2)
      (leafCodes n code) := by
  induction n with
  | leaf c f => intro code; rw [leafCodes]; exact List.pairwise_singleton _ _
  | internal f l r ihl ihr =>
    intro code
    rw [leafCodes, List.pairwise_append]
    refine ⟨ihl _, ihr _, ?_⟩
    intro p hp q hq
    have hp2 := leafCodes_val_extends l (code ++ [false]) p hp
    have hq2 := leafCodes_val_extends r (code ++ [true]) q hq
    have hlen : (code ++ [false]).length = (code ++ [true]).length := by simp
    have hne : (code ++ [false]) ≠ (code ++ [true]) := by simp
    exact ⟨no_cross_pfx _ _ hlen hne _ _ hp2 hq2,
      no_cross_pfx _ _ hlen.symm (Ne.symm hne) _ _ hq2 hp2⟩

theorem codes_eq_leafCodes (freq : List (Char × Nat)) (h : freq ≠ [])
    (hnd : (freq.map Prod.fst).Nodup) :
    ∃ t, build_huffman_tree freq = some t ∧
      generate_codes_root (build_huffman_tree freq) = leafCodes t [] ∧
      List.Perm ((leafCodes t []).map Prod.fst) (freq.map Prod.fst) := by
  obtain ⟨t, ht, hchars⟩ := build_huffman_tree_chars freq h
  have hperm : List.Perm ((leafCodes t []).map Prod.fst) (freq.map Prod.fst) := by
    rw [← Multiset.coe_eq_coe, leafCodes_keys t [], hchars]
  refine ⟨t, ht, ?_, hperm⟩
  rw [ht, generate_codes_root, generate_codes_eq_foldl]
  have hkeysnd : ((leafCodes t []).map Prod.fst).Nodup := hperm.nodup_iff.mpr hnd
  rw [foldl_dict_set_fresh _ [] hkeysnd (by simp)]
  simp

theorem pairwise_vals_nodup (codes : List (Char × List Bool))
    (hpw : List.Pairwise (fun p q : Char × List Bool => ¬ p.2 <+: q.2 ∧ ¬ q.2 <+: p.2) codes) :
    (codes.map Prod.snd).Nodup := by
  rw [List.Nodup, List.pairwise_map]
  refine hpw.imp ?_
  intro p q hr heq
  exact hr.1 (heq ▸ List.prefix_rfl)

theorem reverse_dict_eq (codes : List (Char × List Bool))
    (hvn : (codes.map Prod.snd).Nodup) :
    reverse_dict codes = codes.map fun p => (p.2, p.1) := by
  rw [reverse_dict]
  have hfold : codes.foldl (fun d p => dict_set d p.2 p.1) [] =
      (codes.map fun p => (p.2, p.1)).foldl (fun acc q => dict_set acc q.1 q.2) [] := by
    rw [List.foldl_map]
  rw [hfold]
  have hkeys : ((codes.map fun p => (p.2, p.1)).map Prod.fst) = codes.map Prod.snd := by
    rw [List.map_map]; rfl
  rw [foldl_dict_set_fresh _ [] (by rw [hkeys]; exact hvn) (by simp)]
  simp

theorem dict_get_map_swap (codes : List (Char × List Bool))
    (hvn : (codes.map Prod.snd).Nodup) (ch : Char) (cw : List Bool)
    (hmem : (ch, cw) ∈ codes) :
    dict_get (codes.map fun p => (p.2, p.1)) cw = some ch := by
  apply dict_get_of_mem_nodup
  · have hkeys : ((codes.map fun p => (p.2, p.1)).map Prod.fst) = codes.map Prod.snd := by
      rw [List.map_map]; rfl
    rw [hkeys]; exact hvn
  · exact List.mem_map.mpr ⟨(ch, cw), hmem, rfl⟩

theorem dict_get_map_swap_mem (codes : List (Char × List Bool))
    (cur : List Bool) (ch : Char)
    (h : dict_get (codes.map fun p => (p.2, p.1)) cur = some ch) :
    (ch, cur) ∈ codes := by
  have hmem := dict_get_mem _ cur ch h
  obtain ⟨p, hp, hpe⟩ := List.mem_map.mp hmem
  have h1 : p.2 = cur := congrArg Prod.fst hpe
  have h2 : p.1 = ch := congrArg Prod.snd hpe
  have : p = (ch, cur) := by
    cases p with
    | mk a b => simp only at h1 h2 ⊢; rw [h1, h2]
  rw [← this]; exact hp

theorem pairwise_to_pfx_closed (codes : List (Char × List Bool))
    (hpw : List.Pairwise (fun p q : Char × List Bool => ¬ p.2 <+: q.2 ∧ ¬ q.2 <+: p.2) codes) :
    ∀ p ∈ codes, ∀ q ∈ codes, p.2 <+: q.2 → p.2 = q.2 := by
  have hsym : Symmetric (fun p q : Char × List Bool => ¬ p.2 <+: q.2 ∧ ¬ q.2 <+: p.2) := by
    intro a b hab; exact ⟨hab.2, hab.1⟩
  intro p hp q hq hpfx
  by_cases hpq : p = q
  · rw [hpq]
  · exact absurd hpfx (hpw.forall hsym hp hq hpq).1

theorem decode_step (codes : List (Char × List Bool))
    (hvn : (codes.map Prod.snd).Nodup)
    (hpf : ∀ p ∈ codes, ∀ q ∈ codes, p.2 <+: q.2 → p.2 = q.2)
    (ch : Char) (cw : List Bool) (hmem : (ch, cw) ∈ codes) :
    ∀ cw2 cw1, cw1 ++ cw2 = cw → cw2 ≠ [] → ∀ rest,
      decode_loop (reverse_dict codes) (cw2 ++ rest) cw1 =
        ch :: decode_loop (reverse_dict codes) rest [] := by
  have hrc : reverse_dict codes = codes.map fun p => (p.2, p.1) := reverse_dict_eq codes hvn
  intro cw2
  induction cw2 with
  | nil => intro cw1 _ hne _; exact absurd rfl hne
  | cons b tl ih =>
    intro cw1 hcat _ rest
    rw [List.cons_append, decode_loop]
    cases tl with
    | nil =>
      have hcur : cw1 ++ [b] = cw := by simpa using hcat
      rw [hcur, hrc, dict_get_map_swap codes hvn ch cw hmem]
      simp
    | cons b2 tl2 =>
      have hlookup : dict_get (reverse_dict codes) (cw1 ++ [b]) = none := by
        rw [hrc]
        cases hdg : dict_get (codes.map fun p => (p.2, p.1)) (cw1 ++ [b]) with
        | none => rfl
        | some ch2 =>
          exfalso
          have hmem2 := dict_get_map_swap_mem codes (cw1 ++ [b]) ch2 hdg
          have hpfx : (cw1 ++ [b]) <+: cw := by
            refine ⟨b2 :: tl2, ?_⟩
            rw [← hcat]
            simp
          have heq := hpf (ch2, cw1 ++ [b]) hmem2 (ch, cw) hmem hpfx
          simp only at heq
          have hl := congrArg List.length heq
          rw [← hcat] at hl
          simp at hl
      rw [hlookup]
      exact ih (cw1 ++ [b]) (by rw [← hcat]; simp) (by simp) rest

theorem decode_encode (codes : List (Char × List Bool))
    (hvn : (codes.map Prod.snd).Nodup)
    (hpf : ∀ p ∈ codes, ∀ q ∈ codes, p.2 <+: q.2 → p.2 = q.2)
    (hnn : ∀ p ∈ codes, p.2 ≠ []) :
    ∀ text enc, encode_text text codes = some enc → decode_text enc codes = text := by
  intro text
  induction text with
  | nil =>
    intro enc henc
    rw [encode_text] at henc
    have : enc = [] := (Option.some.inj henc).symm
    rw [this]
    rfl
  | cons ch rest ih =>
    intro enc henc
    rw [encode_text] at henc
    cases hg : dict_get codes ch with
    | none => rw [hg] at henc; simp at henc
    | some cw =>
      cases he : encode_text rest codes with
      | none => rw [hg, he] at henc; simp at henc
      | some enc2 =>
        rw [hg, he] at henc
        simp only [Option.some.injEq] at henc
        have hmem := dict_get_mem codes ch cw hg
        rw [← henc]
        show decode_loop (reverse_dict codes) (cw ++ enc2) [] = ch :: rest
        rw [decode_step codes hvn hpf ch cw hmem cw [] (by simp) (hnn _ hmem) enc2]
        exact congrArg (ch :: ·) (ih enc2 he)

theorem bits8_roundtrip : ∀ (b0 b1 b2 b3 b4 b5 b6 b7 : Bool),
    bitsOfNat8 (natOfBits [b0, b1, b2, b3, b4, b5, b6, b7]) =
      [b0, b1, b2, b3, b4, b5, b6, b7] := by
  decide

theorem bits8_roundtrip_of_length (c : List Bool) (hc : c.length = 8) :
    bitsOfNat8 (natOfBits c) = c := by
  rcases c with _ | ⟨b0, c⟩; · simp at hc
  rcases c with _ | ⟨b1, c⟩; · simp at hc
  rcases c with _ | ⟨b2, c⟩; · simp at hc
  rcases c with _ | ⟨b3, c⟩; · simp at hc
  rcases c with _ | ⟨b4, c⟩; · simp at hc
  rcases c with _ | ⟨b5, c⟩; · simp at hc
  rcases c with _ | ⟨b6, c⟩; · simp at hc
  rcases c with _ | ⟨b7, c⟩; · simp at hc
  rcases c with _ | ⟨b8, c⟩
  · exact bits8_roundtrip b0 b1 b2 b3 b4 b5 b6 b7
  · simp at hc
  
theorem natOfBits_bitsOfNat8_lt8 : ∀ n < 8, natOfBits (bitsOfNat8 n) = n := by
  decide

theorem bitsOfNat8_length (n : Nat) : (bitsOfNat8 n).length = 8 := rfl

theorem bytes_bits_id (bits : List Bool) (h : bits.length % 8 = 0) :
    _bytes_to_bits (_bits_to_bytes bits) = bits := by
  induction bits using _bits_to_bytes.induct with
  | case1 => rw [_bits_to_bytes]; rfl
  | case2 b rest ih =>
    rw [_bits_to_bytes]
    have hlen : (b :: rest).length % 8 = 0 := h
    have hge : 8 ≤ (b :: rest).length := by
      rcases Nat.lt_or_ge (b :: rest).length 8 with hlt | hge
      · exfalso
        have hpos : 0 < (b :: rest).length := by simp
        omega
      · exact hge
    have htake : ((b :: rest).take 8).length = 8 := by
      rw [List.length_take]
      omega
    have hdrop : ((b :: rest).drop 8).length % 8 = 0 := by
      rw [List.length_drop]
      omega
    show _bytes_to_bits (natOfBits ((b :: rest).take 8) :: _bits_to_bytes ((b :: rest).drop 8)) = _
    have hstep : _bytes_to_bits (natOfBits ((b :: rest).take 8) ::
        _bits_to_bytes ((b :: rest).drop 8)) =
        bitsOfNat8 (natOfBits ((b :: rest).take 8)) ++
          _bytes_to_bits (_bits_to_bytes ((b :: rest).drop 8)) := by
      rw [_bytes_to_bits, _bytes_to_bits, List.map_cons, List.flatten_cons]
    rw [hstep, ih hdrop, bits8_roundtrip_of_length _ htake, List.take_append_drop]

theorem pad_encoded_parts (encoded : List Bool) :
    (pad_encoded encoded).2 = (8 - encoded.length % 8) % 8 ∧
    (pad_encoded encoded).1 = bitsOfNat8 (pad_encoded encoded).2 ++
      (encoded ++ List.replicate (pad_encoded encoded).2 false) := by
  exact ⟨rfl, rfl⟩

theorem pad_encoded_length (encoded : List Bool) :
    (pad_encoded encoded).1.length = 8 + encoded.length + (pad_encoded encoded).2 := by
  rw [(pad_encoded_parts encoded).2]
  simp [bitsOfNat8_length]
  omega

theorem pad_encoded_mod8 (encoded : List Bool) :
    (pad_encoded encoded).1.length % 8 = 0 := by
  rw [pad_encoded_length, (pad_encoded_parts encoded).1]
  omega

theorem remove_pad_encoded (encoded : List Bool) :
    remove_padding (pad_encoded encoded).1 = some encoded := by
  have hparts := pad_encoded_parts encoded
  have hextra_lt : (pad_encoded encoded).2 < 8 := by
    rw [hparts.1]; omega
  have htake : (pad_encoded encoded).1.take 8 = bitsOfNat8 (pad_encoded encoded).2 := by
    rw [hparts.2]
    rw [List.take_append_of_le_length (le_of_eq (bitsOfNat8_length _).symm)]
    rw [← bitsOfNat8_length (pad_encoded encoded).2, List.take_length]
  have hdrop : (pad_encoded encoded).1.drop 8 =
      encoded ++ List.replicate (pad_encoded encoded).2 false := by
    rw [hparts.2]
    rw [show (8 : Nat) = (bitsOfNat8 (pad_encoded encoded).2).length from (bitsOfNat8_length _).symm]
    rw [List.drop_left]
  rw [remove_padding, htake, hdrop]
  rw [if_neg (by simp [bitsOfNat8])]
  rw [natOfBits_bitsOfNat8_lt8 _ hextra_lt]
  dsimp only
  by_cases hz : 0 < (pad_encoded encoded).2
  · rw [if_pos hz]
    congr 1
    have : (encoded ++ List.replicate (pad_encoded encoded).2 false).length -
        (pad_encoded encoded).2 = encoded.length := by
      simp
    rw [this]
    rw [List.take_left' rfl]
  · rw [if_neg hz]
    have : (pad_encoded encoded).2 = 0 := by omega
    rw [this]
    simp

theorem pack_unpack (e : List Bool) :
    remove_padding (_bytes_to_bits (_bits_to_bytes (pad_encoded e).1)) = some e := by
  rw [bytes_bits_id _ (pad_encoded_mod8 e)]
  exact remove_pad_encoded e

theorem dict_get_isSome_of_mem_keys {κ ν : Type} [DecidableEq κ] (d : List (κ × ν)) (k : κ)
    (h : k ∈ d.map Prod.fst) : ∃ v, dict_get d k = some v := by
  cases hg : dict_get d k with
  | none => exact absurd ((dict_get_none_iff d k).mp hg) (not_not.mpr h)
  | some v => exact ⟨v, rfl⟩

theorem encode_some (text : List Char) (codes : List (Char × List Bool))
    (hcov : ∀ ch ∈ text, ch ∈ codes.map Prod.fst) :
    ∃ enc, encode_text text codes = some enc := by
  induction text with
  | nil => exact ⟨[], rfl⟩
  | cons ch rest ih =>
    obtain ⟨cw, hcw⟩ := dict_get_isSome_of_mem_keys codes ch (hcov ch (by simp))
    obtain ⟨enc2, henc2⟩ := ih (fun c hc => hcov c (by simp [hc]))
    refine ⟨cw ++ enc2, ?_⟩
    rw [encode_text, hcw, henc2]

theorem bft_fold_keys (text : List Char) :
    ∀ d : List (Char × Nat), (d.map Prod.fst).Nodup →
    (((text.foldl (fun freq char => dict_set freq char ((dict_get freq char).getD 0 + 1)) d).map
      Prod.fst).Nodup ∧
    ∀ c, c ∈ (text.foldl (fun freq char => dict_set freq char ((dict_get freq char).getD 0 + 1))
        d).map Prod.fst ↔ c ∈ d.map Prod.fst ∨ c ∈ text) := by
  induction text with
  | nil => intro d hnd; exact ⟨hnd, by simp⟩
  | cons ch rest ih =>
    intro d hnd
    rw [List.foldl_cons]
    obtain ⟨ihnd, ihmem⟩ := ih (dict_set d ch ((dict_get d ch).getD 0 + 1))
      (dict_set_keys_nodup d ch _ hnd)
    refine ⟨ihnd, ?_⟩
    intro c
    rw [ihmem c, dict_set_keys_mem]
    simp only [List.mem_cons]
    tauto

theorem bft_keys (text : List Char) :
    ((build_frequency_table text).map Prod.fst).Nodup ∧
    ∀ c, c ∈ (build_frequency_table text).map Prod.fst ↔ c ∈ text := by
  obtain ⟨hnd, hmem⟩ := bft_fold_keys text [] (by simp)
  exact ⟨hnd, fun c => by rw [build_frequency_table, hmem c]; simp⟩

theorem bft_ne_nil (text : List Char) (h : text ≠ []) : build_frequency_table text ≠ [] := by
  cases text with
  | nil => exact absurd rfl h
  | cons ch rest =>
    intro hfe
    have := ((bft_keys (ch :: rest)).2 ch).mpr (by simp)
    rw [hfe] at this
    simp at this

theorem compress_roundtrip (text : List Char) (h : text ≠ []) :
    ∃ bytes codes, _compress_text text = some (bytes, codes) ∧
      _decompress_bytes bytes codes = some text := by
  have hkeys := bft_keys text
  have hfne : build_frequency_table text ≠ [] := bft_ne_nil text h
  obtain ⟨t, ht, hroot, hperm⟩ := codes_eq_leafCodes (build_frequency_table text) hfne hkeys.1
  have hpw : List.Pairwise (fun p q : Char × List Bool => ¬ p.2 <+: q.2 ∧ ¬ q.2 <+: p.2)
      (generate_codes_root (build_huffman_tree (build_frequency_table text))) := by
    rw [hroot]; exact leafCodes_pairwise t []
  have hvn := pairwise_vals_nodup _ hpw
  have hpf := pairwise_to_pfx_closed _ hpw
  have hnn : ∀ p ∈ generate_codes_root (build_huffman_tree (build_frequency_table text)),
      p.2 ≠ [] := by
    rw [hroot]; exact leafCodes_val_ne_nil t []
  have hcov : ∀ ch ∈ text,
      ch ∈ (generate_codes_root (build_huffman_tree (build_frequency_table text))).map
        Prod.fst := by
    intro ch hch
    rw [hroot]
    exact hperm.mem_iff.mpr ((hkeys.2 ch).mpr hch)
  obtain ⟨enc, henc⟩ := encode_some text _ hcov
  refine ⟨_bits_to_bytes (pad_encoded enc).1,
    generate_codes_root (build_huffman_tree (build_frequency_table text)), ?_, ?_⟩
  · rw [_compress_text, if_neg h, henc]
  · rw [_decompress_bytes, pack_unpack enc]
    exact congrArg some (decode_encode _ hvn hpf hnn text enc henc)

theorem bft_fold_single (a : Char) (t : List Char) (hall : ∀ c ∈ t, c = a) :
    ∀ k : Nat, t.foldl (fun freq char => dict_set freq char ((dict_get freq char).getD 0 + 1))
      [(a, k)] = [(a, k + t.length)] := by
  induction t with
  | nil => intro k; simp
  | cons c rest ih =>
    intro k
    have hc : c = a := hall c (by simp)
    subst hc
    rw [List.foldl_cons]
    have hget : dict_get [(c, k)] c = some k := by
      rw [dict_get]
      rw [List.find?_cons_of_pos _ (by simp)]
      rfl
    have hset : dict_set [(c, k)] c (k + 1) = [(c, k + 1)] := by
      rw [dict_set, if_pos (by simp)]
      simp
    rw [hget]
    show List.foldl _ (dict_set [(c, k)] c (k + 1)) rest = _
    rw [hset, ih (fun x hx => hall x (by simp [hx])) (k + 1)]
    simp only [List.length_cons]
    have harith : k + 1 + rest.length = k + (rest.length + 1) := by omega
    rw [harith]

theorem bft_all_eq (a : Char) (text : List Char) (h1 : text ≠ []) (h2 : ∀ c ∈ text, c = a) :
    build_frequency_table text = [(a, text.length)] := by
  cases text with
  | nil => exact absurd rfl h1
  | cons c rest =>
    have hc : c = a := h2 c (by simp)
    subst hc
    rw [build_frequency_table, List.foldl_cons]
    show List.foldl _ (dict_set [] c ((dict_get [] c).getD 0 + 1)) rest = _
    have hstep : dict_set [] c ((dict_get [] c).getD 0 + 1) = [(c, 1)] := rfl
    rw [hstep, bft_fold_single c rest (fun x hx => h2 x (by simp [hx])) 1]
    simp only [List.length_cons]
    have harith : 1 + rest.length = rest.length + 1 := by omega
    rw [harith]

theorem single_tree (a : Char) (n : Nat) :
    build_huffman_tree [(a, n)] = some (Node.leaf a n) := by
  rw [build_huffman_tree, if_neg (by simp)]
  have hheap : heapify ([(a, n)].map fun p => Node.leaf p.1 p.2) = [Node.leaf a n] := by
    rw [heapify]
    simp only [List.map_cons, List.map_nil, List.length_cons, List.length_nil]
    show heapifyLoop [Node.leaf a n] (1 / 2) = [Node.leaf a n]
    rw [Nat.div_eq_of_lt (by omega)]
    rfl
  rw [hheap, hufLoop, dif_neg (by simp)]
  rfl

theorem single_codes (a : Char) (n : Nat) :
    generate_codes_root (build_huffman_tree [(a, n)]) = [(a, [false])] := by
  rw [single_tree]
  rfl

theorem compress_codes_component (text : List Char) (bytes : List Nat)
    (codes : List (Char × List Bool)) (h : _compress_text text = some (bytes, codes)) :
    codes = generate_codes_root (build_huffman_tree (build_frequency_table text)) := by
  rw [_compress_text] at h
  by_cases htext : text = []
  · rw [if_pos htext] at h; simp at h
  · rw [if_neg htext] at h
    cases he : encode_text text
        (generate_codes_root (build_huffman_tree (build_frequency_table text))) with
    | none => rw [he] at h; simp at h
    | some enc =>
      rw [he] at h
      simp only [Option.some.injEq, Prod.mk.injEq] at h
      exact h.2.symm

/-- C1: Round-trip law. For every non-empty symbol sequence, decompressing
the packed bitstream produced by compressing it, with the code table
produced by that same compression, returns exactly the original sequence. -/
theorem C1_round_trip (text : List Char) (h : text ≠ []) :
    ∃ bytes codes, _compress_text text = some (bytes, codes) ∧
      _decompress_bytes bytes codes = some text :=
  compress_roundtrip text h

/-- Witness for C1 at the concrete input "ab". -/
theorem C1_round_trip_witness :
    ∃ bytes codes, _compress_text ['a', 'b'] = some (bytes, codes) ∧
      _decompress_bytes bytes codes = some ['a', 'b'] :=
  C1_round_trip ['a', 'b'] (by decide)

/-- C2: Prefix-free property. For every non-empty frequency table (a Python
dict, so its keys are distinct), in the code table produced by
generate_codes on the tree returned by build_huffman_tree, no codeword is a
prefix of any other codeword of the table. -/
theorem C2_prefix_free (freq : List (Char × Nat)) (h : freq ≠ [])
    (hnd : (freq.map Prod.fst).Nodup) :
    ∀ p ∈ generate_codes_root (build_huffman_tree freq),
      ∀ q ∈ generate_codes_root (build_huffman_tree freq), p ≠ q → ¬ p.2 <+: q.2 := by
  obtain ⟨t, ht, hroot, hperm⟩ := codes_eq_leafCodes freq h hnd
  rw [hroot]
  have hpw := leafCodes_pairwise t []
  have hsym : Symmetric (fun p q : Char × List Bool => ¬ p.2 <+: q.2 ∧ ¬ q.2 <+: p.2) :=
    fun x y hxy => ⟨hxy.2, hxy.1⟩
  intro p hp q hq hne
  exact (hpw.forall hsym hp hq hne).1

/-- Witness for C2 at the concrete table {a: 1, b: 2}, whose codes are
a -> 0 and b -> 1. -/
theorem C2_prefix_free_witness :
    ¬ (('a', [false]) : Char × List Bool).2 <+: (('b', [true]) : Char × List Bool).2 :=
  C2_prefix_free [('a', 1), ('b', 2)] (by decide) (by decide)
    ('a', [false])
    (by simp +decide [build_huffman_tree, heapify, heapifyLoop, hufLoop, heappop, heappush,
      siftup, siftup_loop, siftdown, siftdown_loop, Node.freq, generate_codes_root,
      generate_codes, dict_set, dict_get])
    ('b', [true])
    (by simp +decide [build_huffman_tree, heapify, heapifyLoop, hufLoop, heappop, heappush,
      siftup, siftup_loop, siftdown, siftdown_loop, Node.freq, generate_codes_root,
      generate_codes, dict_set, dict_get])
    (by decide)

/-- C3: the claim says decode must fail with IncompleteCode when a non-empty
partial codeword remains after all bits are consumed. The code has no such
check: decode_text on the bits 01 with the table {a: 0} consumes 0, emits a,
accumulates the unmatched trailing 1 and silently drops it, returning "a"
instead of failing. -/
theorem C3_decode_silent_drop :
    decode_text [false, true] [('a', [false])] = ['a'] := by
  decide

/-- C4: the claim says unpacking must fail with MalformedStream when the
byte array is empty or the padding count exceeds the available trailing
bits. The code only fails on the empty array (int of an empty string raises
ValueError, the none below); on the one-byte array [7], whose padding
header 7 exceeds the zero remaining bits, Python's s[:-7] silently clamps
to the empty string and decompression returns a result instead of failing. -/
theorem C4_padding_overrun_silent :
    _decompress_bytes [7] ([] : List (Char × List Bool)) = some [] ∧
      remove_padding [] = none := by
  decide

/-- C5 counterexample: for the one-bit payload [0], pad_encoded produces 16
total bits with padding count 7, and (16 - 8 - 7) mod 8 = 1, not 0: the
claimed equation (total_bits - 8 - padding_count) mod 8 == 0 fails. -/
theorem C5_padding_equation_cex :
    ¬ ((((pad_encoded [false]).1.length - 8 - (pad_encoded [false]).2) % 8) = 0) := by
  decide

/-- C5 amended: the packer computes padding = (8 - L mod 8) mod 8, emits an
8-bit header holding that count followed by the payload and exactly padding
appended zero bits; hence 0 <= padding_count <= 7, the total bit length is
a multiple of 8, and total_bits - 8 - padding_count equals the logical
payload length L (rather than being divisible by 8). -/
theorem C5_padding_invariant_amended (encoded : List Bool) :
    (pad_encoded encoded).2 = (8 - encoded.length % 8) % 8 ∧
    (pad_encoded encoded).2 ≤ 7 ∧
    (pad_encoded encoded).1 = bitsOfNat8 (pad_encoded encoded).2 ++
      (encoded ++ List.replicate (pad_encoded encoded).2 false) ∧
    (pad_encoded encoded).1.length % 8 = 0 ∧
    (pad_encoded encoded).1.length - 8 - (pad_encoded encoded).2 = encoded.length := by
  refine ⟨(pad_encoded_parts encoded).1, ?_, (pad_encoded_parts encoded).2,
    pad_encoded_mod8 encoded, ?_⟩
  · rw [(pad_encoded_parts encoded).1]; omega
  · rw [pad_encoded_length]; omega

/-- C6: Pack/unpack round-trip. For every bit sequence e, converting the
bytes produced by packing e back to bits MSB-first and applying
remove_padding yields exactly e. -/
theorem C6_pack_unpack (e : List Bool) :
    remove_padding (_bytes_to_bits (_bits_to_bytes (pad_encoded e).1)) = some e :=
  pack_unpack e

/-- C7: Single-symbol case. For every non-empty input whose symbols are all
equal, the generated code table is the one-entry table mapping that symbol
to the one-bit code 0, and the input round-trips through compress then
decompress. -/
theorem C7_single_symbol (a : Char) (text : List Char) (h1 : text ≠ [])
    (h2 : ∀ c ∈ text, c = a) :
    ∃ bytes, _compress_text text = some (bytes, [(a, [false])]) ∧
      _decompress_bytes bytes [(a, [false])] = some text := by
  obtain ⟨bytes, codes, hc, hd⟩ := compress_roundtrip text h1
  have hcodes : codes = [(a, [false])] := by
    rw [compress_codes_component text bytes codes hc, bft_all_eq a text h1 h2, single_codes]
  rw [hcodes] at hc hd
  exact ⟨bytes, hc, hd⟩

/-- Witness for C7 at the concrete input "aaaa". -/
theorem C7_single_symbol_witness :
    ∃ bytes, _compress_text ['a', 'a', 'a', 'a'] = some (bytes, [('a', [false])]) ∧
      _decompress_bytes bytes [('a', [false])] = some ['a', 'a', 'a', 'a'] :=
  C7_single_symbol 'a' ['a', 'a', 'a', 'a'] (by decide) (by decide)

/-- C8: Byte-count monotonicity on the input named by the claim: compressing
the 14-byte input "aaaaaaaabbbbcc" produces a 4-byte packed bitstream,
strictly smaller than the raw input. The three symbol frequencies 8, 4, 2
are pairwise distinct and stay distinct through every merge, so no
priority-queue tie-break arises and this tree shape is the only one. -/
theorem C8_byte_count :
    ∃ bytes codes,
      _compress_text ['a', 'a', 'a', 'a', 'a', 'a', 'a', 'a', 'b', 'b', 'b', 'b', 'c', 'c'] =
        some (bytes, codes) ∧
      bytes.length <
        (['a', 'a', 'a', 'a', 'a', 'a', 'a', 'a', 'b', 'b', 'b', 'b', 'c', 'c'] : List Char).length := by
  refine ⟨[4, 255, 85, 0], [('c', [false, false]), ('b', [false, true]), ('a', [true])], ?_, ?_⟩
  · simp +decide [_compress_text, build_frequency_table, dict_set, dict_get, build_huffman_tree,
      heapify, heapifyLoop, hufLoop, heappop, heappush, siftup, siftup_loop, siftdown,
      siftdown_loop, Node.freq, generate_codes_root, generate_codes, encode_text,
      pad_encoded, bitsOfNat8, _bits_to_bytes, natOfBits]
  · decide

/-- C9: Idempotent re-decode. Decoding a fixed (packed bitstream, code
table) pair is a pure function of its two arguments: any two runs return
equal results. -/
theorem C9_idempotent_decode (bin_bytes : List Nat) (codes : List (Char × List Bool))
    (r1 r2 : Option (List Char)) (h1 : _decompress_bytes bin_bytes codes = r1)
    (h2 : _decompress_bytes bin_bytes codes = r2) : r1 = r2 := by
  rw [← h1, ← h2]

/-- Witness for C9 at the concrete pair ([0], empty table). -/
theorem C9_idempotent_decode_witness :
    _decompress_bytes [0] ([] : List (Char × List Bool)) = some [] :=
  C9_idempotent_decode [0] [] (_decompress_bytes [0] []) (some []) rfl (by decide)

/-- C10: Code-table coverage. For every non-empty frequency table with
distinct keys, the code table produced by generate_codes on
build_huffman_tree's tree has exactly the frequency table's key set, and
every codeword is a non-empty bit string, so every counted symbol has a
usable codeword at encode time. -/
theorem C10_coverage (freq : List (Char × Nat)) (h : freq ≠ [])
    (hnd : (freq.map Prod.fst).Nodup) :
    (∀ c, c ∈ (generate_codes_root (build_huffman_tree freq)).map Prod.fst ↔
      c ∈ freq.map Prod.fst) ∧
    ∀ p ∈ generate_codes_root (build_huffman_tree freq), p.2 ≠ [] := by
  obtain ⟨t, ht, hroot, hperm⟩ := codes_eq_leafCodes freq h hnd
  rw [hroot]
  exact ⟨fun c => hperm.mem_iff, leafCodes_val_ne_nil t []⟩

/-- Witness for C10 at the concrete table {a: 1, b: 2}. -/
theorem C10_coverage_witness :
    (∀ c, c ∈ (generate_codes_root (build_huffman_tree [('a', 1), ('b', 2)])).map Prod.fst ↔
      c ∈ ([('a', 1), ('b', 2)] : List (Char × Nat)).map Prod.fst) ∧
    ∀ p ∈ generate_codes_root (build_huffman_tree [('a', 1), ('b', 2)]), p.2 ≠ [] :=
  C10_coverage [('a', 1), ('b', 2)] (by decide) (by decide)
